import Mathlib

/-!
Shallow embedding of the call-transcript keyword annotation engine of the
repository: the KEYWORD_PATTERNS table, the per-category global-regex match
collection loop, the descending sort of highlights, the reverse splice-based
rendering, and the TranscriptViewer component around it.

Strings are modelled as List Char. The JS regexes of KEYWORD_PATTERNS are
modelled by explicit matchers with ECMAScript semantics for exactly these
patterns: ordered alternation with backtracking, greedy quantifiers, the i
flag via lower-casing, and the word-boundary assertion.
-/

namespace AIVoiceAgent

/-- The apostrophe character, used inside two keyword alternatives. -/
def apos : Char := Char.ofNat 39

/-- JS regex word character class: letters, digits, underscore. -/
def isWordChar (c : Char) : Bool := c.isAlphanum || c == '_'

/-- JS regex whitespace class: the code points ECMAScript treats as
whitespace or line terminators. -/
def isJsSpace (c : Char) : Bool :=
  c.toNat == 9 || c.toNat == 10 || c.toNat == 11 || c.toNat == 12 || c.toNat == 13
    || c.toNat == 32 || c.toNat == 160 || c.toNat == 5760
    || (8192 ≤ c.toNat && c.toNat ≤ 8202) || c.toNat == 8232 || c.toNat == 8233
    || c.toNat == 8239 || c.toNat == 8287 || c.toNat == 12288 || c.toNat == 65279

/-- The digit-or-comma class appearing in the first money alternative. -/
def isDigitComma (c : Char) : Bool := c.isDigit || c == ','

/-- Character of the text at index i, if in range. -/
def charAt (t : List Char) (i : Nat) : Option Char := t.get? i

/-- Is the character at index i a word character (false out of range). -/
def isWordAt (t : List Char) (i : Nat) : Bool :=
  match charAt t i with
  | some c => isWordChar c
  | none => false

/-- JS word-boundary assertion at position i: exactly one of the character
before i and the character at i is a word character. -/
def wordBoundary (t : List Char) (i : Nat) : Bool :=
  (if i = 0 then false else isWordAt t (i - 1)) != isWordAt t i

/-- Case-insensitive literal match of the lowercase word w at position i,
modelling a regex literal alternative under the i flag. -/
def litAt (t : List Char) (i : Nat) (w : List Char) : Bool :=
  ((t.drop i).take w.length).map Char.toLower == w

/-- Ordered alternation of a word-list pattern: the first alternative that
matches at i and is followed by a word boundary wins; a failing trailing
boundary backtracks into the next alternative, as in ECMAScript. -/
def tryWords (ws : List (List Char)) (t : List Char) (i : Nat) : Option Nat :=
  match ws with
  | [] => none
  | w :: rest =>
    if litAt t i w && wordBoundary t (i + w.length) then some w.length
    else tryWords rest t i

/-- A whole word-list pattern: leading word boundary, then the alternation. -/
def wordAltMatch (ws : List (List Char)) (t : List Char) (i : Nat) : Option Nat :=
  if wordBoundary t i then tryWords ws t i else none

/-- Length of the maximal run of digits starting at i. -/
def digitRun (t : List Char) (i : Nat) : Nat := ((t.drop i).takeWhile Char.isDigit).length

/-- Length of the maximal run of digits and commas starting at i. -/
def digitCommaRun (t : List Char) (i : Nat) : Nat := ((t.drop i).takeWhile isDigitComma).length

/-- Length of the maximal run of whitespace starting at i. -/
def spaceRun (t : List Char) (i : Nat) : Nat := ((t.drop i).takeWhile isJsSpace).length

/-- Is the character at index i a digit (false out of range). -/
def isDigitAt (t : List Char) (i : Nat) : Bool :=
  match charAt t i with
  | some c => c.isDigit
  | none => false

/-- Characters consumed by the optional cents group of the money pattern at
position j: a dot followed by exactly two digits, or nothing. Greedy, and no
backtracking can help, because nothing later in the pattern matches a dot. -/
def centsOpt (t : List Char) (j : Nat) : Nat :=
  if charAt t j == some '.' && isDigitAt t (j + 1) && isDigitAt t (j + 2) then 3 else 0

/-- Characters consumed by the greedy star over comma-plus-three-digit groups
in the second money alternative (fueled; the initial fuel always suffices
because each group consumes four characters). -/
def commaGroupsLen : Nat → List Char → Nat → Nat
  | 0, _, _ => 0
  | fuel + 1, t, j =>
    if charAt t j == some ',' && isDigitAt t (j + 1) && isDigitAt t (j + 2)
        && isDigitAt t (j + 3) then
      4 + commaGroupsLen fuel t (j + 4)
    else 0

/-- The final unit alternation of the money pattern, in source order, with
the greedy optional plural s. Case-insensitive, no trailing boundary. -/
def moneyUnit (t : List Char) (j : Nat) : Option Nat :=
  if litAt t j ("dollar".toList) then
    some (if litAt t (j + 6) ("s".toList) then 7 else 6)
  else if litAt t j ("thousand".toList) then some 8
  else if litAt t j ("k".toList) then some 1
  else if litAt t j ("grand".toList) then some 5
  else none

/-- Position after the digits and the comma groups of the second money
alternative, when it starts at i and fixes d leading digits. -/
def afterGroups (t : List Char) (i d : Nat) : Nat :=
  i + d + commaGroupsLen t.length t (i + d)

/-- Position after the optional cents group as well. -/
def afterCents (t : List Char) (i d : Nat) : Nat :=
  afterGroups t i d + centsOpt t (afterGroups t i d)

/-- Position after the whitespace run as well: where the unit word starts. -/
def moneyTail (t : List Char) (i d : Nat) : Nat :=
  afterCents t i d + spaceRun t (afterCents t i d)

/-- The second money alternative after fixing d leading digits: the comma
groups, the optional cents, the whitespace run, then a unit word; the match
length runs from i to the end of the unit word. -/
def moneyAlt2Core (t : List Char) (i : Nat) (d : Nat) : Option Nat :=
  match moneyUnit t (moneyTail t i d) with
  | some u => some (moneyTail t i d - i + u)
  | none => none

/-- One backtracking step of the one-to-three-digit quantifier: d digits are
only available when the digit run at i is at least d. -/
def tryDigits (t : List Char) (i : Nat) (d : Nat) : Option Nat :=
  if d ≤ digitRun t i then moneyAlt2Core t i d else none

/-- The greedy backtracking order of the one-to-three-digit quantifier: the
first digit count whose continuation succeeds wins. -/
def tryDigitsList (t : List Char) (i : Nat) : List Nat → Option Nat
  | [] => none
  | d :: rest =>
    match tryDigits t i d with
    | some l => some l
    | none => tryDigitsList t i rest

/-- The second money alternative: word boundary, then one to three digits
tried greedily (three first, backtracking to two, then one). -/
def moneyAlt2 (t : List Char) (i : Nat) : Option Nat :=
  if wordBoundary t i then tryDigitsList t i [3, 2, 1] else none

/-- The first money alternative: a dollar sign, a nonempty greedy run of
digits and commas, then the optional cents group. -/
def moneyAlt1 (t : List Char) (i : Nat) : Option Nat :=
  if charAt t i == some '$' then
    let r := digitCommaRun t (i + 1)
    if 1 ≤ r then some (1 + r + centsOpt t (i + 1 + r)) else none
  else none

/-- The money pattern: its two top-level alternatives in source order. -/
def moneyMatch (t : List Char) (i : Nat) : Option Nat :=
  match moneyAlt1 t i with
  | some l => some l
  | none => moneyAlt2 t i

/-- The seven keyword categories of KEYWORD_PATTERNS. -/
inductive Category where
  | money
  | debt
  | income
  | hardship
  | objection
  | dnc
  | positive
deriving DecidableEq, Repr

/-- The categories in declaration order, as Object.entries yields them. -/
def categories : List Category :=
  [.money, .debt, .income, .hardship, .objection, .dnc, .positive]

/-- Characters of a string literal. -/
def lc (s : String) : List Char := s.toList

/-- Alternatives of the debt pattern, in source order. -/
def debtWords : List (List Char) :=
  [lc "debt", lc "owe", lc "owing", lc "creditor", lc "collection", lc "balance",
   lc "outstanding", lc "delinquent", lc "past due", lc "charged off", lc "default"]

/-- Alternatives of the income pattern, in source order. -/
def incomeWords : List (List Char) :=
  [lc "income", lc "salary", lc "wage", lc "earn", lc "make", lc "paycheck", lc "monthly",
   lc "weekly", lc "hourly", lc "job", lc "work", lc "employed", lc "employment",
   lc "unemployed"]

/-- Alternatives of the hardship pattern, in source order. -/
def hardshipWords : List (List Char) :=
  [lc "hardship", lc "struggle", lc "struggling", lc "difficult", lc "trouble", lc "behind",
   lc "late", (lc "can" ++ [apos] ++ lc "t pay"), lc "cannot pay", lc "missed", lc "medical",
   lc "hospital", lc "surgery", lc "lost job", lc "laid off", lc "divorce", lc "death"]

/-- Alternatives of the objection pattern, in source order. -/
def objectionWords : List (List Char) :=
  [lc "not interested", lc "no thank", lc "hang up", lc "stop calling", lc "busy",
   lc "bad time", lc "call back", lc "later", lc "too much", lc "expensive", lc "scam",
   lc "fraud", lc "not real", lc "legitimate"]

/-- Alternatives of the dnc pattern, in source order. -/
def dncWords : List (List Char) :=
  [lc "do not call", (lc "don" ++ [apos] ++ lc "t call"), lc "stop calling", lc "remove",
   lc "take me off", lc "no more calls", lc "never call", lc "attorney", lc "lawyer",
   lc "sue", lc "harassment", lc "report", lc "ftc", lc "fcc", lc "complaint"]

/-- Alternatives of the positive pattern, in source order. -/
def positiveWords : List (List Char) :=
  [lc "yes", lc "interested", lc "help", lc "need", lc "want", lc "agree", lc "okay",
   lc "transfer", lc "connect", lc "speak", lc "talk to", lc "qualify", lc "eligible"]

/-- Matcher of each category: some l when the category regex matches a
length-l substring at position i of the text. -/
def matchAt : Category → List Char → Nat → Option Nat
  | .money, t, i => moneyMatch t i
  | .debt, t, i => wordAltMatch debtWords t i
  | .income, t, i => wordAltMatch incomeWords t i
  | .hardship, t, i => wordAltMatch hardshipWords t i
  | .objection, t, i => wordAltMatch objectionWords t i
  | .dnc, t, i => wordAltMatch dncWords t i
  | .positive, t, i => wordAltMatch positiveWords t i

/-- The className of each KEYWORD_PATTERNS entry. -/
def className : Category → List Char
  | .money =>
    lc "bg-emerald-500/20 text-emerald-700 dark:text-emerald-300 px-0.5 rounded font-medium"
  | .debt => lc "bg-purple-500/20 text-purple-700 dark:text-purple-300 px-0.5 rounded"
  | .income => lc "bg-blue-500/20 text-blue-700 dark:text-blue-300 px-0.5 rounded"
  | .hardship => lc "bg-orange-500/20 text-orange-700 dark:text-orange-300 px-0.5 rounded"
  | .objection => lc "bg-red-500/20 text-red-700 dark:text-red-300 px-0.5 rounded"
  | .dnc =>
    lc "bg-red-600/30 text-red-800 dark:text-red-200 px-0.5 rounded font-semibold border border-red-500/50"
  | .positive => lc "bg-green-500/20 text-green-700 dark:text-green-300 px-0.5 rounded"

/-- One collected highlight: start and end offsets into the transcript, the
category key, and the matched substring, as pushed by the scan loop. -/
structure Highlight where
  start : Nat
  endIdx : Nat
  type : Category
  text : List Char
deriving DecidableEq, Repr

/-- The search a global regex exec performs: the least match position at or
after p, with the match length (fueled; fuel of t.length + 2 suffices). -/
def findFirst (c : Category) (t : List Char) : Nat → Nat → Option (Nat × Nat)
  | 0, _ => none
  | fuel + 1, p =>
    if t.length < p then none
    else
      match matchAt c t p with
      | some l => some (p, l)
      | none => findFirst c t fuel (p + 1)

/-- The while loop collecting matches of one category: each iteration pushes
the highlight and continues from the match end, the updated lastIndex of the
global regex (fueled; fuel of t.length + 1 suffices). -/
def scanFrom (c : Category) (t : List Char) : Nat → Nat → List Highlight
  | 0, _ => []
  | fuel + 1, p =>
    match findFirst c t (t.length + 2) p with
    | none => []
    | some (s, l) => ⟨s, s + l, c, (t.drop s).take l⟩ :: scanFrom c t fuel (s + l)

/-- All matches of one category, scanning from position 0. -/
def execAll (c : Category) (t : List Char) : List Highlight :=
  scanFrom c t (t.length + 1) 0

/-- The highlights array: for each category in declaration order, every
match of its fresh global regex over the transcript. -/
def mkHighlights (t : List Char) : List Highlight :=
  (categories.map (fun c => execAll c t)).flatten

/-- Stable insertion into a list already sorted by start descending. -/
def insertDesc (h : Highlight) : List Highlight → List Highlight
  | [] => [h]
  | x :: xs => if h.start < x.start then x :: insertDesc h xs else h :: x :: xs

/-- The highlights.sort call with comparator b.start minus a.start: a stable
sort by start descending, as ECMAScript guarantees for Array sort. -/
def sortDesc : List Highlight → List Highlight
  | [] => []
  | x :: xs => insertDesc x (sortDesc xs)

/-- The markup the splice inserts for one highlight: an opening span tag
carrying the className, the captured match text, and the closing tag. -/
def spanWrap (cls : List Char) (txt : List Char) : List Char :=
  lc "<span class=\"" ++ cls ++ lc "\">" ++ txt ++ lc "</span>"

/-- One splice step of the forEach body: result.slice(0, start), the span
markup, then result.slice(end), with the offsets of the highlight applied to
the current (possibly already spliced) result string. -/
def applyHighlight (res : List Char) (h : Highlight) : List Char :=
  res.take h.start ++ spanWrap (className h.type) h.text ++ res.drop h.endIdx

/-- The forEach over the sorted highlights, threading the result string. -/
def applyAll (t : List Char) (hs : List Highlight) : List Char :=
  hs.foldl applyHighlight t

/-- The useMemo body: null for a falsy transcript (null, undefined or the
empty string), otherwise the fully spliced result string. -/
def highlightedTranscript (transcript : Option (List Char)) : Option (List Char) :=
  match transcript with
  | none => none
  | some [] => none
  | some t => some (applyAll t (sortDesc (mkHighlights t)))

/-- The rendered output of the TranscriptViewer component: either the
no-transcript sentinel block, or the legend part together with the html
given to dangerouslySetInnerHTML. -/
inductive ViewerOutput where
  | noTranscript
  | view (legend : Option (List Category)) (html : List Char)
deriving DecidableEq, Repr

/-- TranscriptViewer: a falsy transcript renders the no-transcript sentinel;
otherwise the legend lists every configured category exactly when showLegend
is set, and the html is highlightedTranscript with the transcript fallback. -/
def TranscriptViewer (transcript : Option (List Char)) (showLegend : Bool) : ViewerOutput :=
  match transcript with
  | none => .noTranscript
  | some [] => .noTranscript
  | some t =>
    .view (if showLegend then some categories else none)
      ((highlightedTranscript (some t)).getD t)

/-- The legend part of a rendered output, when the content branch rendered. -/
def legendPart : ViewerOutput → Option (Option (List Category))
  | .noTranscript => none
  | .view lg _ => some lg

/-- A compiled regex object: the category stands for its immutable source
and flags, lastIndex for the mutable scan position of a global regex. -/
structure RegexObj where
  cat : Category
  lastIndex : Nat

/-- The new RegExp(pattern.source, pattern.flags) step: it reads only the
immutable source and flags of the module-level object, so the fresh regex
starts at lastIndex 0 whatever scan position the module state holds. -/
def freshRegex (c : Category) (_st : Category → Nat) : RegexObj :=
  { cat := c, lastIndex := 0 }

/-- Scan of one category through a given regex object, from its lastIndex. -/
def execAllObj (r : RegexObj) (t : List Char) : List Highlight :=
  scanFrom r.cat t (t.length + 1) r.lastIndex

/-- The highlights array built from fresh regexes under module state st. -/
def mkHighlightsSt (st : Category → Nat) (t : List Char) : List Highlight :=
  (categories.map (fun c => execAllObj (freshRegex c st) t)).flatten

/-- The useMemo body with the module-level pattern state threaded through:
returns the output and the state after the call (the loop only advances the
fresh regexes, never the module-level objects). -/
def highlightedTranscriptSt (st : Category → Nat) (transcript : Option (List Char)) :
    Option (List Char) × (Category → Nat) :=
  match transcript with
  | none => (none, st)
  | some [] => (none, st)
  | some t => (some (applyAll t (sortDesc (mkHighlightsSt st t))), st)

/-- Skip the remainder of a markup tag, through the closing angle bracket. -/
def dropTag : List Char → List Char
  | [] => []
  | c :: rest => if c == '>' then rest else dropTag rest

/-- Text content of produced html: the characters outside tags (fueled; the
fuel always suffices when it is at least the length of the list). -/
def stripTagsF : Nat → List Char → List Char
  | 0, _ => []
  | _ + 1, [] => []
  | fuel + 1, c :: rest =>
    if c == '<' then stripTagsF fuel (dropTag rest) else c :: stripTagsF fuel rest

/-- Text content of produced html: concatenation of the segment texts the
html renders, with the inserted markup removed. -/
def stripTags (l : List Char) : List Char := stripTagsF l.length l

/-! ### Basic facts about the matchers -/

theorem charAt_lt {t : List Char} {i : Nat} {x : Char} (h : charAt t i = some x) :
    i < t.length := by
  by_contra hc
  rw [charAt, List.get?_eq_none.mpr (by omega)] at h
  exact Option.noConfusion h

theorem run_le (p : Char → Bool) (t : List Char) (j : Nat) :
    ((t.drop j).takeWhile p).length ≤ t.length - j := by
  have h := ((t.drop j).takeWhile_sublist p).length_le
  simpa [List.length_drop] using h

theorem litAt_bound {t w : List Char} {i : Nat} (h : litAt t i w = true) (hw : 0 < w.length) :
    i + w.length ≤ t.length := by
  unfold litAt at h
  have he := eq_of_beq h
  have hlen := congrArg List.length he
  simp [List.length_take, List.length_drop] at hlen
  omega

theorem tryWords_some {ws : List (List Char)} {t : List Char} {i l : Nat}
    (h : tryWords ws t i = some l) :
    ∃ w ∈ ws, l = w.length ∧ litAt t i w = true := by
  induction ws with
  | nil => simp [tryWords] at h
  | cons w rest ih =>
    rw [tryWords] at h
    by_cases hc : (litAt t i w && wordBoundary t (i + w.length)) = true
    · rw [if_pos hc] at h
      have hparts := hc
      simp only [Bool.and_eq_true] at hparts
      exact ⟨w, List.mem_cons_self w rest, (Option.some.inj h).symm, hparts.1⟩
    · rw [if_neg hc] at h
      obtain ⟨w2, hw2, hrest⟩ := ih h
      exact ⟨w2, List.mem_cons_of_mem w hw2, hrest⟩

theorem wordAltMatch_some {ws : List (List Char)} {t : List Char} {i l : Nat}
    (h : wordAltMatch ws t i = some l) :
    ∃ w ∈ ws, l = w.length ∧ litAt t i w = true := by
  unfold wordAltMatch at h
  by_cases hb : wordBoundary t i = true
  · rw [if_pos hb] at h
    exact tryWords_some h
  · rw [if_neg hb] at h
    exact Option.noConfusion h

theorem wordAlt_pos_le {ws : List (List Char)} {t : List Char} {i l : Nat}
    (hws : ∀ w ∈ ws, 0 < w.length) (h : wordAltMatch ws t i = some l) :
    1 ≤ l ∧ i + l ≤ t.length := by
  obtain ⟨w, hw, hl, hlit⟩ := wordAltMatch_some h
  subst hl
  exact ⟨hws w hw, litAt_bound hlit (hws w hw)⟩

theorem moneyUnit_spec {t : List Char} {j u : Nat} (h : moneyUnit t j = some u) :
    1 ≤ u ∧ j + u ≤ t.length := by
  unfold moneyUnit at h
  split_ifs at h with h1 h2 h3 h4 h5
  all_goals first
  | (have hu := Option.some.inj h
     subst hu
     constructor
     · omega
     · first
       | (have hb := litAt_bound h2 (w := "s".toList) (by decide)
          have hb2 := litAt_bound h1 (w := "dollar".toList) (by decide)
          simp [lc] at hb hb2
          omega)
       | (have hb := litAt_bound h1 (w := "dollar".toList) (by decide)
          simp [lc] at hb
          omega)
       | (have hb := litAt_bound h3 (w := "thousand".toList) (by decide)
          simp [lc] at hb
          omega)
       | (have hb := litAt_bound h4 (w := "k".toList) (by decide)
          simp [lc] at hb
          omega)
       | (have hb := litAt_bound h5 (w := "grand".toList) (by decide)
          simp [lc] at hb
          omega))
  | exact Option.noConfusion h

theorem le_moneyTail (t : List Char) (i d : Nat) : i + d ≤ moneyTail t i d := by
  unfold moneyTail afterCents afterGroups
  omega

theorem moneyAlt2Core_some {t : List Char} {i d l : Nat} (h : moneyAlt2Core t i d = some l) :
    ∃ u, moneyUnit t (moneyTail t i d) = some u ∧ l = moneyTail t i d - i + u := by
  unfold moneyAlt2Core at h
  cases hm : moneyUnit t (moneyTail t i d) with
  | none =>
    simp only [hm] at h
    exact Option.noConfusion h
  | some u =>
    simp only [hm] at h
    exact ⟨u, rfl, (Option.some.inj h).symm⟩

theorem tryDigitsList_some {t : List Char} {i l : Nat} {ds : List Nat}
    (h : tryDigitsList t i ds = some l) :
    ∃ d ∈ ds, moneyAlt2Core t i d = some l := by
  induction ds with
  | nil => simp [tryDigitsList] at h
  | cons d rest ih =>
    rw [tryDigitsList] at h
    cases ht : tryDigits t i d with
    | some l2 =>
      rw [ht] at h
      have hl := Option.some.inj h
      subst hl
      unfold tryDigits at ht
      by_cases hd : d ≤ digitRun t i
      · rw [if_pos hd] at ht
        exact ⟨d, List.mem_cons_self d rest, ht⟩
      · rw [if_neg hd] at ht
        exact Option.noConfusion ht
    | none =>
      rw [ht] at h
      obtain ⟨d2, hd2, hcore⟩ := ih h
      exact ⟨d2, List.mem_cons_of_mem d hd2, hcore⟩

theorem moneyAlt2_pos_le {t : List Char} {i l : Nat} (h : moneyAlt2 t i = some l) :
    1 ≤ l ∧ i + l ≤ t.length := by
  unfold moneyAlt2 at h
  by_cases hb : wordBoundary t i = true
  · rw [if_pos hb] at h
    obtain ⟨d, _, hcore⟩ := tryDigitsList_some h
    obtain ⟨u, hu, hl⟩ := moneyAlt2Core_some hcore
    obtain ⟨hu1, hu2⟩ := moneyUnit_spec hu
    have ht := le_moneyTail t i d
    omega
  · rw [if_neg hb] at h
    exact Option.noConfusion h

theorem centsOpt_le {t : List Char} {j : Nat} (hj : j ≤ t.length) :
    j + centsOpt t j ≤ t.length := by
  by_cases hc : (charAt t j == some '.' && isDigitAt t (j + 1) && isDigitAt t (j + 2)) = true
  · rw [centsOpt, if_pos hc]
    simp only [Bool.and_eq_true] at hc
    have h2 := hc.2
    unfold isDigitAt at h2
    cases hx : charAt t (j + 2) with
    | none => rw [hx] at h2; simp at h2
    | some c => have := charAt_lt hx; omega
  · rw [centsOpt, if_neg hc]
    omega

theorem moneyAlt1_pos_le {t : List Char} {i l : Nat} (h : moneyAlt1 t i = some l) :
    1 ≤ l ∧ i + l ≤ t.length := by
  unfold moneyAlt1 at h
  by_cases hd : (charAt t i == some '$') = true
  · rw [if_pos hd] at h
    by_cases hr : 1 ≤ digitCommaRun t (i + 1)
    · rw [if_pos hr] at h
      have hl := (Option.some.inj h).symm
      have hdollar := charAt_lt (eq_of_beq hd)
      have hrun : digitCommaRun t (i + 1) ≤ t.length - (i + 1) :=
        run_le isDigitComma t (i + 1)
      have hcents : (i + 1 + digitCommaRun t (i + 1))
          + centsOpt t (i + 1 + digitCommaRun t (i + 1)) ≤ t.length :=
        centsOpt_le (by omega)
      omega
    · rw [if_neg hr] at h
      exact Option.noConfusion h
  · rw [if_neg hd] at h
    exact Option.noConfusion h

theorem matchAt_pos_le {c : Category} {t : List Char} {i l : Nat}
    (h : matchAt c t i = some l) : 1 ≤ l ∧ i + l ≤ t.length := by
  cases c <;> simp only [matchAt] at h
  case money =>
    unfold moneyMatch at h
    cases h1 : moneyAlt1 t i with
    | some l2 =>
      rw [h1] at h
      have := Option.some.inj h
      subst this
      exact moneyAlt1_pos_le h1
    | none =>
      rw [h1] at h
      exact moneyAlt2_pos_le h
  case debt => exact wordAlt_pos_le (by decide) h
  case income => exact wordAlt_pos_le (by decide) h
  case hardship => exact wordAlt_pos_le (by decide) h
  case objection => exact wordAlt_pos_le (by decide) h
  case dnc => exact wordAlt_pos_le (by decide) h
  case positive => exact wordAlt_pos_le (by decide) h

theorem matchAt_none_of_le {c : Category} {t : List Char} {i : Nat}
    (hi : t.length ≤ i) : matchAt c t i = none := by
  cases h : matchAt c t i with
  | none => rfl
  | some l =>
    obtain ⟨h1, h2⟩ := matchAt_pos_le h
    omega

/-! ### Facts about the exec search and the scan loop -/

theorem findFirst_some {c : Category} {t : List Char} {fuel p s l : Nat}
    (h : findFirst c t fuel p = some (s, l)) :
    p ≤ s ∧ matchAt c t s = some l ∧ ∀ q, p ≤ q → q < s → matchAt c t q = none := by
  induction fuel generalizing p with
  | zero => exact Option.noConfusion h
  | succ fuel ih =>
    rw [findFirst] at h
    by_cases hp : t.length < p
    · rw [if_pos hp] at h
      exact Option.noConfusion h
    · rw [if_neg hp] at h
      cases hm : matchAt c t p with
      | some l2 =>
        rw [hm] at h
        have := Prod.mk.injEq .. ▸ Option.some.inj h
        obtain ⟨hs, hl⟩ := Prod.mk.inj (Option.some.inj h)
        subst hs
        subst hl
        exact ⟨Nat.le_refl p, hm, fun q hq1 hq2 => absurd hq1 (by omega)⟩
      | none =>
        rw [hm] at h
        obtain ⟨h1, h2, h3⟩ := ih h
        refine ⟨by omega, h2, fun q hq1 hq2 => ?_⟩
        rcases Nat.eq_or_lt_of_le hq1 with rfl | hlt
        · exact hm
        · exact h3 q (by omega) hq2

theorem findFirst_none {c : Category} {t : List Char} {fuel p : Nat}
    (h : findFirst c t fuel p = none) (hfuel : t.length + 2 ≤ fuel + p) :
    ∀ q, p ≤ q → matchAt c t q = none := by
  induction fuel generalizing p with
  | zero =>
    intro q hq
    exact matchAt_none_of_le (by omega)
  | succ fuel ih =>
    rw [findFirst] at h
    by_cases hp : t.length < p
    · intro q hq
      exact matchAt_none_of_le (by omega)
    · rw [if_neg hp] at h
      cases hm : matchAt c t p with
      | some l2 => rw [hm] at h; exact Option.noConfusion h
      | none =>
        rw [hm] at h
        intro q hq
        rcases Nat.eq_or_lt_of_le hq with rfl | hlt
        · exact hm
        · exact ih h (by omega) q (by omega)

theorem findFirst_none_of_lt {c : Category} {t : List Char} {fuel p : Nat}
    (hp : t.length < p) : findFirst c t fuel p = none := by
  cases fuel with
  | zero => rfl
  | succ fuel => rw [findFirst, if_pos hp]

theorem scanFrom_sound {c : Category} {t : List Char} {fuel p : Nat} :
    ∀ h ∈ scanFrom c t fuel p,
      p ≤ h.start ∧ h.start < h.endIdx ∧ h.endIdx ≤ t.length ∧ h.type = c ∧
        matchAt c t h.start = some (h.endIdx - h.start) ∧
        h.text = (t.drop h.start).take (h.endIdx - h.start) := by
  induction fuel generalizing p with
  | zero => intro h hm; exact absurd hm (List.not_mem_nil h)
  | succ fuel ih =>
    intro h hm
    rw [scanFrom] at hm
    cases hf : findFirst c t (t.length + 2) p with
    | none => rw [hf] at hm; exact absurd hm (List.not_mem_nil h)
    | some sl =>
      obtain ⟨s, l⟩ := sl
      rw [hf] at hm
      obtain ⟨hps, hmat, _⟩ := findFirst_some hf
      obtain ⟨hl1, hl2⟩ := matchAt_pos_le hmat
      rcases List.mem_cons.mp hm with rfl | htail
      · refine ⟨hps, ?_, ?_, rfl, ?_, ?_⟩
        · show s < s + l
          omega
        · show s + l ≤ t.length
          omega
        · show matchAt c t s = some (s + l - s)
          simpa [Nat.add_sub_cancel_left] using hmat
        · show (t.drop s).take l = (t.drop s).take (s + l - s)
          simp [Nat.add_sub_cancel_left]
      · obtain ⟨k1, k2, k3, k4, k5, k6⟩ := ih h htail
        exact ⟨by omega, k2, k3, k4, k5, k6⟩

theorem scanFrom_pairwise {c : Category} {t : List Char} {fuel p : Nat} :
    List.Pairwise (fun a b => a.endIdx ≤ b.start) (scanFrom c t fuel p) := by
  induction fuel generalizing p with
  | zero => exact List.Pairwise.nil
  | succ fuel ih =>
    rw [scanFrom]
    cases hf : findFirst c t (t.length + 2) p with
    | none => exact List.Pairwise.nil
    | some sl =>
      obtain ⟨s, l⟩ := sl
      refine List.Pairwise.cons (fun b hb => ?_) ih
      have hb2 := (scanFrom_sound b hb).1
      show s + l ≤ b.start
      omega

theorem scanFrom_complete {c : Category} {t : List Char} {fuel p : Nat}
    (hfuel : t.length + 1 ≤ fuel + p) :
    ∀ q, p ≤ q → matchAt c t q ≠ none →
      ∃ h ∈ scanFrom c t fuel p, h.start ≤ q ∧ q < h.endIdx := by
  induction fuel generalizing p with
  | zero =>
    intro q hq hne
    exact absurd (matchAt_none_of_le (by omega)) hne
  | succ fuel ih =>
    intro q hq hne
    rw [scanFrom]
    cases hf : findFirst c t (t.length + 2) p with
    | none => exact absurd (findFirst_none hf (by omega) q hq) hne
    | some sl =>
      obtain ⟨s, l⟩ := sl
      obtain ⟨hps, hmat, hmin⟩ := findFirst_some hf
      obtain ⟨hl1, hl2⟩ := matchAt_pos_le hmat
      by_cases hqs : q < s
      · exact absurd (hmin q hq hqs) hne
      · by_cases hqe : q < s + l
        · refine ⟨⟨s, s + l, c, (t.drop s).take l⟩, List.mem_cons_self .., ?_, ?_⟩
          · show s ≤ q
            omega
          · show q < s + l
            omega
        · obtain ⟨h2, hmem, hrest⟩ := ih (p := s + l) (by omega) q (by omega) hne
          exact ⟨h2, List.mem_cons_of_mem _ hmem, hrest⟩

theorem scanFrom_stable {c : Category} {t : List Char} {fuel fuel2 p : Nat}
    (h1 : t.length + 1 ≤ fuel + p) (h2 : t.length + 1 ≤ fuel2 + p) :
    scanFrom c t fuel p = scanFrom c t fuel2 p := by
  induction fuel generalizing fuel2 p with
  | zero =>
    cases fuel2 with
    | zero => rfl
    | succ fuel2 =>
      have hn : findFirst c t (t.length + 2) p = none := findFirst_none_of_lt (by omega)
      show ([] : List Highlight) = scanFrom c t (fuel2 + 1) p
      rw [scanFrom, hn]
  | succ fuel ih =>
    cases fuel2 with
    | zero =>
      have hn : findFirst c t (t.length + 2) p = none := findFirst_none_of_lt (by omega)
      show scanFrom c t (fuel + 1) p = ([] : List Highlight)
      rw [scanFrom, hn]
    | succ fuel2 =>
      rw [scanFrom, scanFrom]
      cases hf : findFirst c t (t.length + 2) p with
      | none => rfl
      | some sl =>
        obtain ⟨s, l⟩ := sl
        obtain ⟨hps, hmat, _⟩ := findFirst_some hf
        obtain ⟨hl1, _⟩ := matchAt_pos_le hmat
        show (⟨s, s + l, c, (t.drop s).take l⟩ : Highlight) :: scanFrom c t fuel (s + l)
            = ⟨s, s + l, c, (t.drop s).take l⟩ :: scanFrom c t fuel2 (s + l)
        have hrec : scanFrom c t fuel (s + l) = scanFrom c t fuel2 (s + l) :=
          ih (by omega) (by omega)
        rw [hrec]

theorem scanFrom_count {c : Category} {t : List Char} {fuel p : Nat} :
    (scanFrom c t fuel p).length ≤ t.length - p := by
  induction fuel generalizing p with
  | zero => simp [scanFrom]
  | succ fuel ih =>
    rw [scanFrom]
    cases hf : findFirst c t (t.length + 2) p with
    | none => simp
    | some sl =>
      obtain ⟨s, l⟩ := sl
      obtain ⟨hps, hmat, _⟩ := findFirst_some hf
      obtain ⟨hl1, hl2⟩ := matchAt_pos_le hmat
      have htail := ih (p := s + l)
      simp only [List.length_cons]
      omega

/-! ### The i flag: matching is invariant under lower-casing the text -/

theorem toNat_ofNat_valid {m : Nat} (h : m.isValidChar) : (Char.ofNat m).toNat = m := by
  unfold Char.ofNat
  rw [dif_pos h]
  rfl

theorem toLower_toNat_upper {c : Char} (h1 : 65 ≤ c.toNat) (h2 : c.toNat ≤ 90) :
    (Char.toLower c).toNat = c.toNat + 32 := by
  unfold Char.toLower
  rw [if_pos ⟨h1, h2⟩]
  exact toNat_ofNat_valid (Or.inl (by omega))

theorem toLower_eq_self {c : Char} (h : ¬(65 ≤ c.toNat ∧ c.toNat ≤ 90)) :
    Char.toLower c = c := by
  unfold Char.toLower
  rw [if_neg]
  omega

theorem toLower_toLower (c : Char) : Char.toLower (Char.toLower c) = Char.toLower c := by
  by_cases hu : 65 ≤ c.toNat ∧ c.toNat ≤ 90
  · have h1 := toLower_toNat_upper hu.1 hu.2
    exact toLower_eq_self (by omega)
  · rw [toLower_eq_self hu, toLower_eq_self hu]

theorem char_eq_iff_toNat {c d : Char} : c = d ↔ c.toNat = d.toNat :=
  ⟨fun h => by rw [h], fun h => Char.eq_of_val_eq (UInt32.toNat.inj h)⟩

theorem isDigit_iff (c : Char) : c.isDigit = true ↔ 48 ≤ c.toNat ∧ c.toNat ≤ 57 := by
  simp [Char.isDigit, Char.toNat, UInt32.le_def, BitVec.le_def, UInt32.toNat]

theorem isWordChar_iff (c : Char) :
    isWordChar c = true ↔
      (65 ≤ c.toNat ∧ c.toNat ≤ 90) ∨ (97 ≤ c.toNat ∧ c.toNat ≤ 122) ∨
        (48 ≤ c.toNat ∧ c.toNat ≤ 57) ∨ c.toNat = 95 := by
  simp [isWordChar, Char.isAlphanum, Char.isAlpha, Char.isUpper, Char.isLower, Char.isDigit,
    Char.toNat, UInt32.le_def, BitVec.le_def, UInt32.toNat, char_eq_iff_toNat]
  tauto

theorem isJsSpace_iff (c : Char) :
    isJsSpace c = true ↔
      c.toNat = 9 ∨ c.toNat = 10 ∨ c.toNat = 11 ∨ c.toNat = 12 ∨ c.toNat = 13 ∨
        c.toNat = 32 ∨ c.toNat = 160 ∨ c.toNat = 5760 ∨
        (8192 ≤ c.toNat ∧ c.toNat ≤ 8202) ∨ c.toNat = 8232 ∨ c.toNat = 8233 ∨
        c.toNat = 8239 ∨ c.toNat = 8287 ∨ c.toNat = 12288 ∨ c.toNat = 65279 := by
  simp [isJsSpace, Bool.or_eq_true, Bool.and_eq_true, beq_iff_eq, decide_eq_true_eq]
  tauto

theorem isWordChar_toLower (c : Char) : isWordChar (Char.toLower c) = isWordChar c := by
  by_cases hu : 65 ≤ c.toNat ∧ c.toNat ≤ 90
  · have h1 := toLower_toNat_upper hu.1 hu.2
    rw [Bool.eq_iff_iff, isWordChar_iff, isWordChar_iff]
    omega
  · rw [toLower_eq_self hu]

theorem isDigit_toLower (c : Char) : (Char.toLower c).isDigit = c.isDigit := by
  by_cases hu : 65 ≤ c.toNat ∧ c.toNat ≤ 90
  · have h1 := toLower_toNat_upper hu.1 hu.2
    rw [Bool.eq_iff_iff, isDigit_iff, isDigit_iff]
    omega
  · rw [toLower_eq_self hu]

theorem isJsSpace_toLower (c : Char) : isJsSpace (Char.toLower c) = isJsSpace c := by
  by_cases hu : 65 ≤ c.toNat ∧ c.toNat ≤ 90
  · have h1 := toLower_toNat_upper hu.1 hu.2
    rw [Bool.eq_iff_iff, isJsSpace_iff, isJsSpace_iff]
    omega
  · rw [toLower_eq_self hu]

theorem toLower_eq_low_iff {c x : Char} (hx : x.toNat < 65) :
    Char.toLower c = x ↔ c = x := by
  rw [char_eq_iff_toNat, char_eq_iff_toNat]
  by_cases hu : 65 ≤ c.toNat ∧ c.toNat ≤ 90
  · have h1 := toLower_toNat_upper hu.1 hu.2
    omega
  · rw [toLower_eq_self hu]

theorem toLower_beq_low {c x : Char} (hx : x.toNat < 65) :
    (Char.toLower c == x) = (c == x) := by
  rw [Bool.eq_iff_iff, beq_iff_eq, beq_iff_eq]
  exact toLower_eq_low_iff hx

theorem isDigitComma_toLower (c : Char) : isDigitComma (Char.toLower c) = isDigitComma c := by
  unfold isDigitComma
  rw [isDigit_toLower, toLower_beq_low (by decide)]

theorem optLower_beq {o : Option Char} {x : Char} (hx : x.toNat < 65) :
    (o.map Char.toLower == some x) = (o == some x) := by
  cases o with
  | none => rfl
  | some c =>
    show (some (Char.toLower c) == some x) = (some c == some x)
    rw [Bool.eq_iff_iff, beq_iff_eq, beq_iff_eq]
    simp only [Option.some.injEq]
    exact toLower_eq_low_iff hx

theorem charAt_map (t : List Char) (i : Nat) :
    charAt (t.map Char.toLower) i = (charAt t i).map Char.toLower := by
  simp [charAt, List.get?_map]

theorem isWordAt_map (t : List Char) (i : Nat) :
    isWordAt (t.map Char.toLower) i = isWordAt t i := by
  unfold isWordAt
  rw [charAt_map]
  cases h : charAt t i with
  | none => rfl
  | some c => simp [isWordChar_toLower]

theorem wordBoundary_map (t : List Char) (i : Nat) :
    wordBoundary (t.map Char.toLower) i = wordBoundary t i := by
  unfold wordBoundary
  rw [isWordAt_map, isWordAt_map]

theorem litAt_map (t : List Char) (i : Nat) (w : List Char) :
    litAt (t.map Char.toLower) i w = litAt t i w := by
  unfold litAt
  rw [show (t.map Char.toLower).drop i = (t.drop i).map Char.toLower from by
        simp [List.map_drop],
      show ((t.drop i).map Char.toLower).take w.length
          = ((t.drop i).take w.length).map Char.toLower from by simp [List.map_take],
      List.map_map,
      show Char.toLower ∘ Char.toLower = Char.toLower from funext toLower_toLower]

theorem runLen_map (p : Char → Bool) (hp : ∀ c, p (Char.toLower c) = p c)
    (t : List Char) (i : Nat) :
    (((t.map Char.toLower).drop i).takeWhile p).length = ((t.drop i).takeWhile p).length := by
  rw [show (t.map Char.toLower).drop i = (t.drop i).map Char.toLower from by
        simp [List.map_drop]]
  rw [show ((t.drop i).map Char.toLower).takeWhile p
        = ((t.drop i).takeWhile (p ∘ Char.toLower)).map Char.toLower from by
          simp only [List.takeWhile_map]]
  rw [show (p ∘ Char.toLower) = p from funext hp]
  simp

theorem digitRun_map (t : List Char) (i : Nat) :
    digitRun (t.map Char.toLower) i = digitRun t i :=
  runLen_map Char.isDigit isDigit_toLower t i

theorem digitCommaRun_map (t : List Char) (i : Nat) :
    digitCommaRun (t.map Char.toLower) i = digitCommaRun t i :=
  runLen_map isDigitComma isDigitComma_toLower t i

theorem spaceRun_map (t : List Char) (i : Nat) :
    spaceRun (t.map Char.toLower) i = spaceRun t i :=
  runLen_map isJsSpace isJsSpace_toLower t i

theorem isDigitAt_map (t : List Char) (i : Nat) :
    isDigitAt (t.map Char.toLower) i = isDigitAt t i := by
  unfold isDigitAt
  rw [charAt_map]
  cases h : charAt t i with
  | none => rfl
  | some c => simp [isDigit_toLower]

theorem centsOpt_map (t : List Char) (j : Nat) :
    centsOpt (t.map Char.toLower) j = centsOpt t j := by
  unfold centsOpt
  rw [charAt_map, isDigitAt_map, isDigitAt_map, optLower_beq (by decide)]

theorem commaGroupsLen_map (t : List Char) :
    ∀ fuel j, commaGroupsLen fuel (t.map Char.toLower) j = commaGroupsLen fuel t j := by
  intro fuel
  induction fuel with
  | zero => intro j; rfl
  | succ fuel ih =>
    intro j
    rw [commaGroupsLen, commaGroupsLen, charAt_map, optLower_beq (by decide),
      isDigitAt_map, isDigitAt_map, isDigitAt_map]
    split
    · rw [ih]
    · rfl

theorem moneyUnit_map (t : List Char) (j : Nat) :
    moneyUnit (t.map Char.toLower) j = moneyUnit t j := by
  unfold moneyUnit
  simp only [litAt_map]

theorem afterGroups_map (t : List Char) (i d : Nat) :
    afterGroups (t.map Char.toLower) i d = afterGroups t i d := by
  unfold afterGroups
  rw [List.length_map, commaGroupsLen_map]

theorem afterCents_map (t : List Char) (i d : Nat) :
    afterCents (t.map Char.toLower) i d = afterCents t i d := by
  unfold afterCents
  rw [afterGroups_map, centsOpt_map]

theorem moneyTail_map (t : List Char) (i d : Nat) :
    moneyTail (t.map Char.toLower) i d = moneyTail t i d := by
  unfold moneyTail
  rw [afterCents_map, spaceRun_map]

theorem moneyAlt2Core_map (t : List Char) (i d : Nat) :
    moneyAlt2Core (t.map Char.toLower) i d = moneyAlt2Core t i d := by
  unfold moneyAlt2Core
  rw [moneyTail_map, moneyUnit_map]

theorem tryDigits_map (t : List Char) (i d : Nat) :
    tryDigits (t.map Char.toLower) i d = tryDigits t i d := by
  unfold tryDigits
  rw [digitRun_map]
  split
  · rw [moneyAlt2Core_map]
  · rfl

theorem tryDigitsList_map (t : List Char) (i : Nat) :
    ∀ ds : List Nat, tryDigitsList (t.map Char.toLower) i ds = tryDigitsList t i ds := by
  intro ds
  induction ds with
  | nil => rfl
  | cons d rest ih =>
    rw [tryDigitsList, tryDigitsList, tryDigits_map]
    cases h : tryDigits t i d with
    | some l => rfl
    | none => exact ih

theorem moneyAlt2_map (t : List Char) (i : Nat) :
    moneyAlt2 (t.map Char.toLower) i = moneyAlt2 t i := by
  unfold moneyAlt2
  rw [wordBoundary_map, tryDigitsList_map]

theorem moneyAlt1_map (t : List Char) (i : Nat) :
    moneyAlt1 (t.map Char.toLower) i = moneyAlt1 t i := by
  simp only [moneyAlt1, charAt_map, digitCommaRun_map, centsOpt_map,
    optLower_beq (show ('$' : Char).toNat < 65 by decide)]

theorem moneyMatch_map (t : List Char) (i : Nat) :
    moneyMatch (t.map Char.toLower) i = moneyMatch t i := by
  unfold moneyMatch
  rw [moneyAlt1_map]
  cases h : moneyAlt1 t i with
  | some l => rfl
  | none => exact moneyAlt2_map t i

theorem tryWords_map (t : List Char) (i : Nat) :
    ∀ ws : List (List Char), tryWords ws (t.map Char.toLower) i = tryWords ws t i := by
  intro ws
  induction ws with
  | nil => rfl
  | cons w rest ih =>
    rw [tryWords, tryWords, litAt_map, wordBoundary_map]
    split
    · rfl
    · exact ih

theorem wordAltMatch_map (t : List Char) (i : Nat) (ws : List (List Char)) :
    wordAltMatch ws (t.map Char.toLower) i = wordAltMatch ws t i := by
  unfold wordAltMatch
  rw [wordBoundary_map]
  split
  · exact tryWords_map t i ws
  · rfl

theorem matchAt_map (c : Category) (t : List Char) (i : Nat) :
    matchAt c (t.map Char.toLower) i = matchAt c t i := by
  cases c <;> simp only [matchAt]
  case money => exact moneyMatch_map t i
  case debt => exact wordAltMatch_map t i debtWords
  case income => exact wordAltMatch_map t i incomeWords
  case hardship => exact wordAltMatch_map t i hardshipWords
  case objection => exact wordAltMatch_map t i objectionWords
  case dnc => exact wordAltMatch_map t i dncWords
  case positive => exact wordAltMatch_map t i positiveWords

theorem findFirst_map (c : Category) (t : List Char) :
    ∀ fuel p, findFirst c (t.map Char.toLower) fuel p = findFirst c t fuel p := by
  intro fuel
  induction fuel with
  | zero => intro p; rfl
  | succ fuel ih =>
    intro p
    rw [findFirst, findFirst, List.length_map, matchAt_map]
    split
    · rfl
    · cases h : matchAt c t p with
      | some l => rfl
      | none => exact ih (p + 1)

theorem scanFrom_map_spans (c : Category) (t : List Char) :
    ∀ fuel p, (scanFrom c (t.map Char.toLower) fuel p).map (fun h => (h.start, h.endIdx))
      = (scanFrom c t fuel p).map (fun h => (h.start, h.endIdx)) := by
  intro fuel
  induction fuel with
  | zero => intro p; rfl
  | succ fuel ih =>
    intro p
    rw [scanFrom, scanFrom, List.length_map, findFirst_map]
    cases h : findFirst c t (t.length + 2) p with
    | none => rfl
    | some sl =>
      obtain ⟨s, l⟩ := sl
      show (s, s + l) :: (scanFrom c (t.map Char.toLower) fuel (s + l)).map
            (fun h => (h.start, h.endIdx))
          = (s, s + l) :: (scanFrom c t fuel (s + l)).map (fun h => (h.start, h.endIdx))
      exact congrArg (List.cons (s, s + l)) (ih (s + l))

theorem execAll_map_spans (c : Category) (t : List Char) :
    (execAll c (t.map Char.toLower)).map (fun h => (h.start, h.endIdx))
      = (execAll c t).map (fun h => (h.start, h.endIdx)) := by
  unfold execAll
  rw [List.length_map]
  exact scanFrom_map_spans c t (t.length + 1) 0

/-! ### The claims -/

set_option maxRecDepth 100000 in
/-- C1. The claim says the ordered segment texts of the annotated output
concatenate back to the transcript exactly, including when raw matches from
different categories overlap. The code violates this: the objection and dnc
patterns both match the whole transcript below over the same range, the
splice applies both, and the text content of the rendered output gains a
fragment of span markup, so it no longer equals the transcript. -/
theorem claim_c1_reconstruction_fails :
    stripTags ((highlightedTranscript (some (lc "stop calling"))).getD [])
      ≠ lc "stop calling" := by decide

set_option maxRecDepth 100000 in
/-- C2. The claim says the highlighted spans present in the output are
pairwise non-overlapping. The code violates this: for the transcript below
the applied highlight list contains two spans over the identical range 0 to
12, one from objection and one from dnc, and both are rendered. -/
theorem claim_c2_nonoverlap_fails :
    sortDesc (mkHighlights (lc "stop calling"))
      = [{ start := 0, endIdx := 12, type := Category.objection, text := lc "stop calling" },
         { start := 0, endIdx := 12, type := Category.dnc, text := lc "stop calling" }] ∧
    ¬(∀ a ∈ sortDesc (mkHighlights (lc "stop calling")),
        ∀ b ∈ sortDesc (mkHighlights (lc "stop calling")),
          a = b ∨ a.endIdx ≤ b.start ∨ b.endIdx ≤ a.start) := by decide

set_option maxRecDepth 100000 in
/-- C3. The claim says candidates are ordered by start ascending with
precedence and length tie-breaks and that of two overlapping matches the
losing one is entirely absent from the output. The code violates this: the
sort is by start descending, and for the overlapping pair below both the
objection and the dnc match stay in the applied list, so neither is absent. -/
theorem claim_c3_precedence_fails :
    ((sortDesc (mkHighlights (lc "debt $5"))).map (fun h => h.start) = [5, 0]) ∧
    (∃ h ∈ sortDesc (mkHighlights (lc "stop calling")), h.type = Category.objection) ∧
    (∃ h ∈ sortDesc (mkHighlights (lc "stop calling")), h.type = Category.dnc) := by decide

set_option maxRecDepth 100000 in
/-- C4. The claim says overlap handling never corrupts indices: every
emitted span is claimed to still address the substring it matched. The code
violates this: processing the two overlapping matches below, the second
splice uses offsets 0 to 12 against the already spliced string, cuts the
previously inserted open tag in half, and leaves the objection class text
dangling in the output, as this exact evaluation shows. -/
theorem claim_c4_splice_corrupts :
    highlightedTranscript (some (lc "stop calling"))
      = some (lc "<span class=\"bg-red-600/30 text-red-800 dark:text-red-200 px-0.5 rounded font-semibold border border-red-500/50\">stop calling</span>\"bg-red-500/20 text-red-700 dark:text-red-300 px-0.5 rounded\">stop calling</span>") := by
  decide

/-- C5. A null, undefined, or empty transcript short-circuits before any
scanning: the memo yields null and the component renders the no-transcript
sentinel, as a defined successful outcome, for every legend flag. -/
theorem claim_c5_empty_sentinel :
    highlightedTranscript none = none ∧
    highlightedTranscript (some []) = none ∧
    ∀ b : Bool, TranscriptViewer none b = ViewerOutput.noTranscript ∧
      TranscriptViewer (some []) b = ViewerOutput.noTranscript :=
  ⟨rfl, rfl, fun _ => ⟨rfl, rfl⟩⟩

/-- C6. The pipeline is deterministic across runs: the output is the same
whatever scan position the module-level pattern objects hold, because every
call compiles fresh regexes with lastIndex zero; the module state is left
untouched, and a second call on the state left by a first call yields the
identical output. -/
theorem claim_c6_determinism (st st2 : Category → Nat) (t : Option (List Char)) :
    (highlightedTranscriptSt st t).1 = (highlightedTranscriptSt st2 t).1 ∧
    (highlightedTranscriptSt st t).2 = st ∧
    (highlightedTranscriptSt st t).1 = highlightedTranscript t ∧
    (highlightedTranscriptSt (highlightedTranscriptSt st t).2 t).1
      = (highlightedTranscriptSt st t).1 := by
  cases t with
  | none => exact ⟨rfl, rfl, rfl, rfl⟩
  | some l =>
    cases l with
    | nil => exact ⟨rfl, rfl, rfl, rfl⟩
    | cons a rest => exact ⟨rfl, rfl, rfl, rfl⟩

/-- C7. Per category the scan finds occurrences soundly (each reported span
is a match of that category at its start, within bounds, carrying the
matched substring), left to right and non-overlapping, and completely
(every position where the matcher fires lies inside some reported span);
the empty transcript and a category with no occurrence contribute nothing;
matching is case-insensitive (lower-casing the text changes no span); and
the highlights list is the concatenation over categories in declaration
order. -/
theorem claim_c7_scanner (c : Category) (t : List Char) :
    (∀ h ∈ execAll c t,
        matchAt c t h.start = some (h.endIdx - h.start) ∧ h.start < h.endIdx ∧
          h.endIdx ≤ t.length ∧ h.type = c ∧
          h.text = (t.drop h.start).take (h.endIdx - h.start)) ∧
    List.Pairwise (fun a b => a.endIdx ≤ b.start) (execAll c t) ∧
    (∀ q, matchAt c t q ≠ none → ∃ h ∈ execAll c t, h.start ≤ q ∧ q < h.endIdx) ∧
    execAll c [] = [] ∧
    ((∀ q, matchAt c t q = none) → execAll c t = []) ∧
    (execAll c (t.map Char.toLower)).map (fun h => (h.start, h.endIdx))
      = (execAll c t).map (fun h => (h.start, h.endIdx)) ∧
    mkHighlights t = (categories.map (fun c2 => execAll c2 t)).flatten := by
  refine ⟨?_, scanFrom_pairwise, ?_, ?_, ?_, execAll_map_spans c t, rfl⟩
  · intro h hm
    obtain ⟨k1, k2, k3, k4, k5, k6⟩ := scanFrom_sound h hm
    exact ⟨k5, k2, k3, k4, k6⟩
  · intro q hq
    exact scanFrom_complete (by omega) q (Nat.zero_le q) hq
  · cases c <;> decide
  · intro hall
    show scanFrom c t (t.length + 1) 0 = []
    rw [scanFrom]
    have h1 : findFirst c t (t.length + 2) 0 = none := by
      cases hf : findFirst c t (t.length + 2) 0 with
      | none => rfl
      | some sl =>
        obtain ⟨s, l⟩ := sl
        obtain ⟨_, hmat, _⟩ := findFirst_some hf
        rw [hall s] at hmat
        exact Option.noConfusion hmat
    rw [h1]

set_option maxRecDepth 100000 in
/-- C7 witness: a concrete dnc occurrence is found and covered, and a
transcript with no positive match contributes no highlight. -/
theorem claim_c7_scanner_witness :
    (matchAt Category.dnc (lc "please stop calling me") 7 ≠ none) ∧
    (∃ h ∈ execAll Category.dnc (lc "please stop calling me"), h.start ≤ 7 ∧ 7 < h.endIdx) ∧
    (∀ q, matchAt Category.positive (lc "zzz") q = none) ∧
    execAll Category.positive (lc "zzz") = [] := by
  have hall : ∀ q, matchAt Category.positive (lc "zzz") q = none := by
    intro q
    by_cases hq : q ≤ 3
    · interval_cases q <;> decide
    · exact matchAt_none_of_le (by
        show (lc "zzz").length ≤ q
        have : (lc "zzz").length = 3 := by decide
        omega)
  refine ⟨by decide, ?_, hall, ?_⟩
  · exact (claim_c7_scanner Category.dnc (lc "please stop calling me")).2.2.1 7 (by decide)
  · exact (claim_c7_scanner Category.positive (lc "zzz")).2.2.2.2.1 hall

set_option maxRecDepth 100000 in
/-- C8. The claim says that outside full-legend mode the legend lists
exactly the categories with at least one resolved span. The code violates
this: the showLegend flag is the only control; with it off no legend is
rendered even though the debt category has a span, and with it on every
configured category is listed even though no category has a span. -/
theorem claim_c8_legend_fails :
    (execAll Category.debt (lc "debt") ≠ []) ∧
    legendPart (TranscriptViewer (some (lc "debt")) false) = some none ∧
    mkHighlights (lc "zzz") = [] ∧
    legendPart (TranscriptViewer (some (lc "zzz")) true) = some (some categories) ∧
    categories ≠ [] := by decide

/-- C8 amended: the legend is controlled solely by the showLegend flag and
is independent of which categories matched: when the flag is set it lists
every configured category in declaration order, and when it is unset no
legend is rendered at all. -/
theorem claim_c8_legend_amended (t : List Char) (b : Bool) (h : t ≠ []) :
    legendPart (TranscriptViewer (some t) b)
      = some (if b then some categories else none) := by
  cases t with
  | nil => exact absurd rfl h
  | cons a rest => rfl

/-- C8 amended witness at a concrete transcript and both flag values. -/
theorem claim_c8_legend_amended_witness :
    (lc "debt" ≠ []) ∧
    legendPart (TranscriptViewer (some (lc "debt")) false) = some none ∧
    legendPart (TranscriptViewer (some (lc "debt")) true) = some (some categories) :=
  ⟨by decide, claim_c8_legend_amended (lc "debt") false (by decide),
    claim_c8_legend_amended (lc "debt") true (by decide)⟩

/-- C9. The scan loop terminates on every transcript: no matcher matches an
empty substring, every reported match strictly advances the scan position,
the fueled loop is stable once the fuel reaches transcript length plus one,
and the number of matches per category is bounded by the transcript length. -/
theorem claim_c9_termination (c : Category) (t : List Char) :
    (∀ i l, matchAt c t i = some l → 1 ≤ l) ∧
    (∀ h ∈ execAll c t, h.start + 1 ≤ h.endIdx) ∧
    (∀ fuel, t.length + 1 ≤ fuel → scanFrom c t fuel 0 = execAll c t) ∧
    (execAll c t).length ≤ t.length := by
  refine ⟨?_, ?_, ?_, ?_⟩
  · intro i l h
    exact (matchAt_pos_le h).1
  · intro h hm
    have := (scanFrom_sound h hm).2.1
    omega
  · intro fuel hf
    exact scanFrom_stable (by omega) (by omega)
  · have hc := @scanFrom_count c t (t.length + 1) 0
    show (scanFrom c t (t.length + 1) 0).length ≤ t.length
    omega

/-- C9 witness: the money matcher on a concrete transcript, with a stable
fuel and a match count within the bound. -/
theorem claim_c9_termination_witness :
    (1 : Nat) ≤ 2 ∧
    (0 + 1 ≤ 2) ∧
    scanFrom Category.money (lc "$5") 10 0 = execAll Category.money (lc "$5") ∧
    (execAll Category.money (lc "$5")).length ≤ (lc "$5").length := by
  have T := claim_c9_termination Category.money (lc "$5")
  exact ⟨T.1 0 2 (by decide),
    T.2.1 ⟨0, 2, Category.money, lc "$5"⟩ (by decide),
    T.2.2.1 10 (by decide), T.2.2.2⟩

/-- C10. On a nonempty transcript in which no category has any match, the
annotation is the identity: the memo returns the transcript verbatim, with
no markup inserted. -/
theorem claim_c10_no_match_identity (t : List Char) (hne : t ≠ [])
    (hnone : ∀ c ∈ categories, execAll c t = []) :
    highlightedTranscript (some t) = some t := by
  have h1 := hnone Category.money (by decide)
  have h2 := hnone Category.debt (by decide)
  have h3 := hnone Category.income (by decide)
  have h4 := hnone Category.hardship (by decide)
  have h5 := hnone Category.objection (by decide)
  have h6 := hnone Category.dnc (by decide)
  have h7 := hnone Category.positive (by decide)
  have hmk : mkHighlights t = [] := by
    simp [mkHighlights, categories, h1, h2, h3, h4, h5, h6, h7]
  cases t with
  | nil => exact absurd rfl hne
  | cons a rest =>
    show some (applyAll (a :: rest) (sortDesc (mkHighlights (a :: rest)))) = some (a :: rest)
    rw [hmk]
    rfl

set_option maxRecDepth 100000 in
/-- C10 witness at a transcript no pattern matches. -/
theorem claim_c10_no_match_identity_witness :
    (lc "zzz" ≠ []) ∧ (∀ c ∈ categories, execAll c (lc "zzz") = []) ∧
    highlightedTranscript (some (lc "zzz")) = some (lc "zzz") :=
  ⟨by decide, by decide, claim_c10_no_match_identity (lc "zzz") (by decide) (by decide)⟩

end AIVoiceAgent
